import Mathlib

/-!
Verification of the thinc linear-model core (`thinc/model.pyx`): the sparse
weight store and scoring loop of `LinearModel.set_scores`, the binary codec
(`_Writer` / `_Reader`) and the `dump`/`load` round trip, the terminal-delta
step of `MultiLayerPerceptron.backprop`, and the persistence error checks.
Weights are modelled as rationals: every operation the properties touch is
exact arithmetic (sums and products of the given constants).
-/

namespace Thinc

/-- One cell of a sparse class-weight array, mirroring `SparseArrayC`:
a signed class id in `key` and a weight in `val`. -/
structure SparseArrayC where
  key : Int
  val : ℚ
  deriving Repr, DecidableEq

/-- Cells of a sparse vector before the first sentinel (the first cell with a
negative `key`): exactly the cells visited by every `while feat[i].key >= 0`
scan in the source. -/
def preSent (v : List SparseArrayC) : List SparseArrayC :=
  v.takeWhile (fun e => decide (0 ≤ e.key))

/-- One input feature, mirroring `FeatureC` (`feat.key`, `feat.val`). -/
structure FeatureC where
  key : Nat
  val : ℚ
  deriving Repr, DecidableEq

/-- The weights table as seen by `set_scores`: `map_get` on the `PreshMap`
returns NULL (`none`) or a pointer to the feature's sparse vector. -/
abbrev WeightStore := Nat → Option (List SparseArrayC)

/-- Pointwise update of a score buffer, modelling `scores[c] += d`. -/
def bump (scores : Nat → ℚ) (c : Nat) (d : ℚ) : Nat → ℚ :=
  fun i => if i = c then scores i + d else scores i

/-- Inner loop of `LinearModel.set_scores`: walk `class_weights` from index 0
while `key >= 0`, doing `scores[class_weights[j].key] += class_weights[j].val
* feat.val` at each step. -/
def walkVec (scores : Nat → ℚ) (v : List SparseArrayC) (x : ℚ) : Nat → ℚ :=
  match v with
  | [] => scores
  | e :: rest =>
      if 0 ≤ e.key then walkVec (bump scores e.key.toNat (e.val * x)) rest x
      else scores

/-- Body of `LinearModel.set_scores`: for each feature in order, look its key
up in the weights table; on NULL do nothing, otherwise run the inner
accumulation loop with the feature's value. -/
def set_scores (store : WeightStore) (scores : Nat → ℚ) (feats : List FeatureC) :
    Nat → ℚ :=
  match feats with
  | [] => scores
  | f :: rest =>
      match store f.key with
      | none => set_scores store scores rest
      | some v => set_scores store (walkVec scores v f.val) rest

/-- Total contribution of one sparse vector at class `c` per unit of feature
value: the sum of `val` over pre-sentinel cells whose key names class `c`. -/
def contrib (v : List SparseArrayC) (c : Nat) : ℚ :=
  match v with
  | [] => 0
  | e :: rest =>
      if 0 ≤ e.key then (if e.key.toNat = c then e.val else 0) + contrib rest c
      else 0

lemma walkVec_eq (scores : Nat → ℚ) (v : List SparseArrayC) (x : ℚ) (c : Nat) :
    walkVec scores v x c = scores c + contrib v c * x := by
  induction v generalizing scores with
  | nil => simp [walkVec, contrib]
  | cons e rest ih =>
      by_cases h : 0 ≤ e.key
      · rw [walkVec, contrib, if_pos h, if_pos h, ih]
        by_cases hc : e.key.toNat = c
        · simp [bump, hc]
          ring
        · have hcc : ¬ c = e.key.toNat := fun hh => hc hh.symm
          simp only [bump, if_neg hcc, if_neg hc]
          ring
      · rw [walkVec, contrib, if_neg h, if_neg h]
        ring

/-- The concrete store of the spec's scenario: feature 42 maps to the vector
`[(3, 1.5), (7, -2.0)]` (with its logical-end sentinel), all other keys are
absent. -/
def store42 : WeightStore :=
  fun k => if k = 42 then some [⟨3, 3/2⟩, ⟨7, -2⟩, ⟨-1, 0⟩] else none

/-- Scores produced by the scenario: one feature `(key=42, value=2.0)` scored
into a zero-initialized buffer. -/
def scores42 : Nat → ℚ :=
  set_scores store42 (fun _ => 0) [⟨42, 2⟩]

/-- C2: with store `{42 : [(3, 1.5), (7, -2.0)]}` and a zero-initialized
10-class buffer, scoring the single feature `(key=42, value=2.0)` yields
`scores[3] = 3.0`, `scores[7] = -4.0`, and `0.0` at every other index. -/
theorem thinc_C2_concrete_scoring :
    scores42 3 = 3 ∧ scores42 7 = -4 ∧
    scores42 0 = 0 ∧ scores42 1 = 0 ∧ scores42 2 = 0 ∧ scores42 4 = 0 ∧
    scores42 5 = 0 ∧ scores42 6 = 0 ∧ scores42 8 = 0 ∧ scores42 9 = 0 := by
  refine ⟨?_, ?_, ?_, ?_, ?_, ?_, ?_, ?_, ?_, ?_⟩ <;>
    (simp [scores42, store42, set_scores, walkVec, bump, Int.toNat]
     try norm_num)

/-- C3: scoring any feature list whose keys are all absent from the store
leaves the score buffer exactly as it was. -/
theorem thinc_C3_absent_features (store : WeightStore) (scores : Nat → ℚ)
    (feats : List FeatureC) (h : ∀ f ∈ feats, store f.key = none) :
    set_scores store scores feats = scores := by
  induction feats with
  | nil => rfl
  | cons f rest ih =>
      have hf : store f.key = none := h f (List.mem_cons_self f rest)
      rw [set_scores, hf]
      exact ih (fun g hg => h g (List.mem_cons_of_mem f hg))

theorem thinc_C3_witness :
    set_scores (fun _ => none) (fun i : Nat => (i : ℚ)) [⟨5, 1⟩, ⟨8, -3⟩]
      = (fun i : Nat => (i : ℚ)) :=
  thinc_C3_absent_features (fun _ => none) (fun i : Nat => (i : ℚ))
    [⟨5, 1⟩, ⟨8, -3⟩] (by intro f hf; rfl)

/-- C4: for any store, key and value, scoring the single feature `(k, 2v)`
into a zero buffer yields at every class index exactly double the score of
scoring `(k, v)` into a zero buffer. -/
theorem thinc_C4_linearity (store : WeightStore) (k : Nat) (v : ℚ) (c : Nat) :
    set_scores store (fun _ => 0) [⟨k, 2 * v⟩] c
      = 2 * set_scores store (fun _ => 0) [⟨k, v⟩] c := by
  cases hk : store k with
  | none => simp [set_scores, hk]
  | some vec =>
      simp only [set_scores, hk, walkVec_eq]
      ring

/-- Classes that `set_scores` can touch: class ids appearing in the
pre-sentinel cells of the vector of some supplied feature present in the
store. -/
def touched (store : WeightStore) (feats : List FeatureC) (c : Nat) : Bool :=
  feats.any (fun f =>
    match store f.key with
    | none => false
    | some v => (preSent v).any (fun e => decide (e.key.toNat = c)))

lemma contrib_eq_zero (v : List SparseArrayC) (c : Nat)
    (h : ∀ e ∈ preSent v, e.key.toNat ≠ c) : contrib v c = 0 := by
  induction v with
  | nil => rfl
  | cons e rest ih =>
      by_cases hk : 0 ≤ e.key
      · have hmem : e ∈ preSent (e :: rest) := by
          simp [preSent, List.takeWhile_cons, hk]
        have hpre : preSent (e :: rest) = e :: preSent rest := by
          simp [preSent, List.takeWhile_cons, hk]
        rw [contrib, if_pos hk, if_neg (h e hmem), zero_add]
        exact ih (fun g hg => h g (by rw [hpre]; exact List.mem_cons_of_mem e hg))
      · rw [contrib, if_neg hk]

/-- C10: for any initial buffer contents, `set_scores` leaves every buffer
element whose class index is not touched by some present feature's vector
exactly unchanged. -/
theorem thinc_C10_frame (store : WeightStore) (scores : Nat → ℚ)
    (feats : List FeatureC) (c : Nat) (h : touched store feats c = false) :
    set_scores store scores feats c = scores c := by
  induction feats generalizing scores with
  | nil => rfl
  | cons f rest ih =>
      rw [touched, List.any_cons, Bool.or_eq_false_iff] at h
      obtain ⟨h1, h2⟩ := h
      cases hk : store f.key with
      | none =>
          simp only [set_scores, hk]
          exact ih scores h2
      | some v =>
          simp only [set_scores, hk]
          rw [ih _ h2, walkVec_eq]
          rw [hk] at h1
          have hz : contrib v c = 0 := by
            apply contrib_eq_zero
            intro e he
            have := (List.any_eq_false).mp h1 e he
            simpa using this
          rw [hz, zero_mul, add_zero]

theorem thinc_C10_witness :
    touched store42 [⟨42, 2⟩, ⟨99, 1⟩] 5 = false ∧
    set_scores store42 (fun i => (i : ℚ) + 1) [⟨42, 2⟩, ⟨99, 1⟩] 5
      = (fun i => ((i : ℚ) + 1)) 5 :=
  ⟨by decide, thinc_C10_frame store42 _ _ 5 (by decide)⟩

/-- One datum of the persisted weight file, at the granularity the codec
reads and writes: a fixed-width unsigned integer (the class-count header or a
feature key), an `int32` record length, or one (class id, weight) cell. -/
inductive FileDatum where
  | word (n : Nat)
  | len (i : Int)
  | ent (c : Int) (w : ℚ)
  deriving Repr, DecidableEq

/-- Modelled from the spec: `SparseArray.cmp` (defined in `sparse.pyx`, which
is not among the given sources) orders cells ascending by class id; the
`qsort` call in `_Writer.write` is modelled as `mergeSort` with this order. -/
def cmpLE (a b : SparseArrayC) : Bool := decide (a.key ≤ b.key)

/-- Serialized form of one cell, as the writer emits it and the reader
consumes it. -/
def entD (e : SparseArrayC) : FileDatum := FileDatum.ent e.key e.val

/-- Body of `_Writer.write`: a NULL vector writes nothing; otherwise emit the
feature key, then the length found by scanning `while feat[i].key >= 0`, then
the first `length` cells after sorting them by class id. -/
def writer_write (fid : Nat) (feat : Option (List SparseArrayC)) :
    List FileDatum :=
  match feat with
  | none => []
  | some f =>
      FileDatum.word fid :: FileDatum.len ((preSent f).length : Int) ::
        ((preSent f).mergeSort cmpLE).map entD

lemma cmpLE_trans (a b c : SparseArrayC) (h1 : cmpLE a b) (h2 : cmpLE b c) :
    cmpLE a c := by
  simp only [cmpLE, decide_eq_true_eq] at *
  omega

lemma cmpLE_total (a b : SparseArrayC) : cmpLE a b || cmpLE b a := by
  simp only [cmpLE]
  by_cases h : a.key ≤ b.key
  · simp [h]
  · simp [le_of_not_le h]

lemma mergeSort_key_sorted (l : List SparseArrayC) :
    (l.mergeSort cmpLE).Pairwise (fun a b => a.key ≤ b.key) := by
  have h := @List.sorted_mergeSort SparseArrayC cmpLE cmpLE_trans cmpLE_total l
  exact h.imp (fun hab => by simpa [cmpLE] using hab)

/-- C5: for every non-null vector whose pre-sentinel cells have distinct class
ids, `_Writer.write` emits the feature key, the length obtained by scanning to
the sentinel, and then exactly the pre-sentinel cells, reordered strictly
ascending by class id. -/
theorem thinc_C5_write_sorted (fid : Nat) (f : List SparseArrayC)
    (hnd : ((preSent f).map SparseArrayC.key).Nodup) :
    ∃ sorted : List SparseArrayC,
      writer_write fid (some f)
          = FileDatum.word fid :: FileDatum.len ((preSent f).length : Int) ::
              sorted.map (fun e => FileDatum.ent e.key e.val)
        ∧ sorted.Perm (preSent f)
        ∧ sorted.Chain' (fun a b => a.key < b.key) := by
  refine ⟨(preSent f).mergeSort cmpLE, rfl, List.mergeSort_perm _ _, ?_⟩
  have hperm : ((preSent f).mergeSort cmpLE).Perm (preSent f) :=
    List.mergeSort_perm _ _
  have hnd2 : (((preSent f).mergeSort cmpLE).map SparseArrayC.key).Nodup :=
    ((hperm.map SparseArrayC.key).nodup_iff).mpr hnd
  have hne : ((preSent f).mergeSort cmpLE).Pairwise
      (fun a b => a.key ≠ b.key) := List.pairwise_map.mp hnd2
  have hlt : ((preSent f).mergeSort cmpLE).Pairwise
      (fun a b => a.key < b.key) :=
    ((mergeSort_key_sorted (preSent f)).and hne).imp
      (fun hab => lt_of_le_of_ne hab.1 hab.2)
  exact hlt.chain'

/-- An unsorted live vector used to exercise the writer. -/
def vecUnsorted : List SparseArrayC := [⟨7, 1⟩, ⟨3, 2⟩, ⟨-1, 0⟩]

theorem thinc_C5_witness :
    ((preSent vecUnsorted).map SparseArrayC.key).Nodup ∧
    ∃ sorted : List SparseArrayC,
      writer_write 9 (some vecUnsorted)
          = FileDatum.word 9 ::
              FileDatum.len ((preSent vecUnsorted).length : Int) ::
              sorted.map (fun e => FileDatum.ent e.key e.val)
        ∧ sorted.Perm (preSent vecUnsorted)
        ∧ sorted.Chain' (fun a b => a.key < b.key) :=
  ⟨by decide, thinc_C5_write_sorted 9 vecUnsorted (by decide)⟩

/-- Read-side state of the `FILE*`: the data not yet consumed, and the
end-of-file indicator that `feof` reports. -/
structure RStream where
  rem : List FileDatum
  eof : Bool
  deriving Repr, DecidableEq

/-- One `fread` of a single datum: on success return it, consume it and leave
the end-of-file indicator alone; a read at the end of the stream returns
nothing (status 0) and raises the indicator. -/
def freadD (s : RStream) : Option FileDatum × RStream :=
  match s.rem with
  | d :: rest => (some d, { rem := rest, eof := s.eof })
  | [] => (none, { rem := [], eof := true })

/-- Outcome `_Reader.read` hands its caller: either return value 0 with the
output parameters untouched (status 0 on the leading feature-key read), or a
record written through `out_id`/`out_feat` together with the returned int
(`true` for 1 = keep reading, `false` for 0 = stop). -/
inductive ReadResult where
  | stop
  | record (fid : Nat) (feat : List SparseArrayC) (cont : Bool)
  deriving Repr, DecidableEq

/-- The `for i in range(length)` loop of `_Reader.read`: each iteration does
two `fread`s for one cell and `assert`s their status (`Except` models a
failed assertion — an I/O shortfall mid-record, or bytes that do not parse
as a cell). -/
def readPairs : RStream → Nat → Except String (RStream × List SparseArrayC)
  | s, 0 => Except.ok (s, [])
  | s, n + 1 =>
      match freadD s with
      | (some (FileDatum.ent c w), s1) =>
          (readPairs s1 n).map (fun r => (r.1, ⟨c, w⟩ :: r.2))
      | _ => Except.error "fread of a cell fell short"

/-- Body of `_Reader.read`: read the feature key (status 0 there signals end
of stream, return 0); read the `int32` length; read `length` cells; append
the capacity sentinel `(-2, 0)`; fill the output parameters; then return 0
if `feof` reports end-of-file and 1 otherwise. -/
def reader_read (s : RStream) : Except String (RStream × ReadResult) :=
  match freadD s with
  | (none, s1) => Except.ok (s1, ReadResult.stop)
  | (some (FileDatum.word fid), s1) =>
      match freadD s1 with
      | (some (FileDatum.len L), s2) =>
          (readPairs s2 L.toNat).map (fun r =>
            (r.1, ReadResult.record fid (r.2 ++ [⟨-2, 0⟩]) (!r.1.eof)))
      | _ => Except.error "fread of the length fell short"
  | _ => Except.error "fread of the key fell short"

/-- Construction of `_Reader`: open, seek, and `fread` the class-count header.
The status of that `fread` is never checked in the source, so on a missing or
mismatched header `_nr_class` is left indeterminate, modelled as 0. -/
def reader_init (file : List FileDatum) : Nat × RStream :=
  match freadD { rem := file, eof := false } with
  | (some (FileDatum.word n), s1) => (n, s1)
  | (_, s1) => (0, s1)

/-- Semantics of `PreshMap.set` on the weights table, viewed as an
association list in iteration order: replace the value under an existing key,
or add a new entry. -/
def storeSet (store : List (Nat × List SparseArrayC)) (k : Nat)
    (v : List SparseArrayC) : List (Nat × List SparseArrayC) :=
  if store.any (fun e => decide (e.1 = k)) then
    store.map (fun e => if e.1 = k then (k, v) else e)
  else store ++ [(k, v)]

/-- The `while reader.read(...): self.weights.set(...)` loop of
`LinearModel.load`: insert each record while the returned int is 1, stop at
the first 0. The fuel argument only bounds the iteration count; callers pass
more fuel than the stream can ever sustain. -/
def loadLoop : Nat → RStream → List (Nat × List SparseArrayC) →
    Except String (List (Nat × List SparseArrayC) × RStream)
  | 0, _, _ => Except.error "out of fuel"
  | fuel + 1, s, store =>
      match reader_read s with
      | Except.error e => Except.error e
      | Except.ok (s1, ReadResult.stop) => Except.ok (store, s1)
      | Except.ok (s1, ReadResult.record fid feat cont) =>
          if cont then loadLoop fuel s1 (storeSet store fid feat)
          else Except.ok (store, s1)

/-- Body of `LinearModel.dump`: write the class-count header, then every
non-NULL entry of the weights table in iteration order. -/
def linear_dump (nr_class : Nat)
    (entries : List (Nat × Option (List SparseArrayC))) : List FileDatum :=
  FileDatum.word nr_class :: entries.flatMap (fun e => writer_write e.1 e.2)

/-- Body of `LinearModel.load`: construct a `_Reader` (which consumes the
header), run the read/set loop over the model's weights table, and return
`reader._nr_class`. Every continuing iteration consumes at least one datum,
so `file.length + 1` fuel is never exhausted. -/
def linear_load (file : List FileDatum)
    (store0 : List (Nat × List SparseArrayC)) :
    Except String (List (Nat × List SparseArrayC) × Nat) :=
  let h := reader_init file
  (loadLoop (file.length + 1) h.2 store0).map (fun r => (r.1, h.1))

lemma preSent_append_sentinel (pairs : List SparseArrayC)
    (h : ∀ e ∈ pairs, 0 ≤ e.key) :
    preSent (pairs ++ [⟨-2, 0⟩]) = pairs := by
  induction pairs with
  | nil => rfl
  | cons e rest ih =>
      have he : decide (0 ≤ e.key) = true :=
        decide_eq_true (h e (List.mem_cons_self e rest))
      have ht := ih (fun g hg => h g (List.mem_cons_of_mem e hg))
      simp only [preSent, List.cons_append, List.takeWhile_cons, he, if_true]
      exact congrArg (e :: ·) ht

lemma readPairs_exact (pairs : List SparseArrayC) (tail : List FileDatum)
    (b : Bool) :
    readPairs { rem := pairs.map entD ++ tail, eof := b } pairs.length
      = Except.ok ({ rem := tail, eof := b }, pairs) := by
  induction pairs with
  | nil => rfl
  | cons e rest ih =>
      show readPairs
          { rem := entD e :: (rest.map entD ++ tail), eof := b }
          (rest.length + 1) = _
      rw [readPairs]
      simp only [freadD, entD]
      rw [ih]
      rfl

lemma reader_read_exact (fid : Nat) (pairs : List SparseArrayC)
    (tail : List FileDatum) (b : Bool) :
    reader_read
        { rem := FileDatum.word fid :: FileDatum.len (pairs.length : Int) ::
            (pairs.map entD ++ tail),
          eof := b }
      = Except.ok ({ rem := tail, eof := b },
          ReadResult.record fid (pairs ++ [⟨-2, 0⟩]) (!b)) := by
  rw [reader_read]
  simp only [freadD, Int.toNat_ofNat]
  rw [readPairs_exact]
  rfl

/-- C6: a record deserialized with length field `L ≥ 0` yields a vector whose
indices `0 .. L-1` hold the `L` deserialized cells, whose index `L` holds the
capacity sentinel `(-2, 0)`, and which — when all deserialized class ids are
nonnegative — the sentinel-stopping scan traverses for exactly `L` cells. -/
theorem thinc_C6_sentinel_integrity (fid : Nat) (pairs : List SparseArrayC)
    (tail : List FileDatum) (b : Bool) (hkeys : ∀ e ∈ pairs, 0 ≤ e.key) :
    ∃ s' : RStream, ∃ v : List SparseArrayC, ∃ cont : Bool,
      reader_read
          { rem := FileDatum.word fid :: FileDatum.len (pairs.length : Int) ::
              (pairs.map entD ++ tail),
            eof := b }
        = Except.ok (s', ReadResult.record fid v cont)
      ∧ (0 : Int) ≤ (pairs.length : Int)
      ∧ v.take pairs.length = pairs
      ∧ v[pairs.length]? = some ⟨-2, 0⟩
      ∧ v.length = pairs.length + 1
      ∧ preSent v = pairs := by
  refine ⟨{ rem := tail, eof := b }, pairs ++ [⟨-2, 0⟩], !b,
    reader_read_exact fid pairs tail b, by positivity, ?_, ?_, ?_,
    preSent_append_sentinel pairs hkeys⟩
  · rw [List.take_left]
  · rw [List.getElem?_append_right (le_refl pairs.length)]
    simp
  · simp

theorem thinc_C6_witness :
    (∀ e ∈ ([⟨0, 1⟩, ⟨3, 2⟩] : List SparseArrayC), 0 ≤ e.key) ∧
    ∃ s' : RStream, ∃ v : List SparseArrayC, ∃ cont : Bool,
      reader_read
          { rem := FileDatum.word 7 ::
              FileDatum.len (([⟨0, 1⟩, ⟨3, 2⟩] :
                List SparseArrayC).length : Int) ::
              (([⟨0, 1⟩, ⟨3, 2⟩] : List SparseArrayC).map entD ++ []),
            eof := false }
        = Except.ok (s', ReadResult.record 7 v cont)
      ∧ (0 : Int) ≤ (([⟨0, 1⟩, ⟨3, 2⟩] : List SparseArrayC).length : Int)
      ∧ v.take ([⟨0, 1⟩, ⟨3, 2⟩] : List SparseArrayC).length
          = [⟨0, 1⟩, ⟨3, 2⟩]
      ∧ v[([⟨0, 1⟩, ⟨3, 2⟩] : List SparseArrayC).length]? = some ⟨-2, 0⟩
      ∧ v.length = ([⟨0, 1⟩, ⟨3, 2⟩] : List SparseArrayC).length + 1
      ∧ preSent v = [⟨0, 1⟩, ⟨3, 2⟩] :=
  ⟨by decide, thinc_C6_sentinel_integrity 7 [⟨0, 1⟩, ⟨3, 2⟩] [] false
    (by decide)⟩

/-- C7: when the end-of-file indicator is already raised while `_Reader.read`
consumes a complete record, `read` returns 0 — the end-of-stream signal —
despite having filled `out_id` and `out_feat` with the record, and the
`while reader.read(...)` loop of `LinearModel.load` therefore stops without
inserting that record into the weights table. -/
theorem thinc_C7_eof_drops_record (fid : Nat) (pairs : List SparseArrayC)
    (tail : List FileDatum) :
    reader_read
        { rem := FileDatum.word fid :: FileDatum.len (pairs.length : Int) ::
            (pairs.map entD ++ tail),
          eof := true }
      = Except.ok ({ rem := tail, eof := true },
          ReadResult.record fid (pairs ++ [⟨-2, 0⟩]) false)
    ∧ ∀ (fuel : Nat) (store : List (Nat × List SparseArrayC)),
        loadLoop (fuel + 1)
            { rem := FileDatum.word fid :: FileDatum.len (pairs.length : Int)
                :: (pairs.map entD ++ tail),
              eof := true }
            store
          = Except.ok (store, { rem := tail, eof := true }) := by
  have h := reader_read_exact fid pairs tail true
  refine ⟨h, ?_⟩
  intro fuel store
  rw [loadLoop, h]
  rfl

/-- Keys of the entries the writer serializes: those whose vector pointer is
non-NULL, in iteration order. -/
def nnKeys (entries : List (Nat × Option (List SparseArrayC))) : List Nat :=
  (entries.filter (fun e => e.2.isSome)).map Prod.fst

/-- Record section of the dumped file (everything after the header). -/
def recData (entries : List (Nat × Option (List SparseArrayC))) :
    List FileDatum :=
  entries.flatMap (fun e => writer_write e.1 e.2)

/-- Vector that `_Reader.read` reconstructs for a stored vector `v`: the
writer's sorted pre-sentinel cells with the capacity sentinel appended. -/
def loadedVec (v : List SparseArrayC) : List SparseArrayC :=
  (preSent v).mergeSort cmpLE ++ [⟨-2, 0⟩]

/-- The weights table `load` builds from a dumped store: one entry per
non-NULL dumped entry, in file order, holding the reconstructed vector. -/
def loadedStore (entries : List (Nat × Option (List SparseArrayC))) :
    List (Nat × List SparseArrayC) :=
  entries.filterMap (fun e => e.2.map (fun v => (e.1, loadedVec v)))

lemma nnKeys_cons_none (k : Nat)
    (rest : List (Nat × Option (List SparseArrayC))) :
    nnKeys ((k, none) :: rest) = nnKeys rest := by
  simp [nnKeys]

lemma nnKeys_cons_some (k : Nat) (v : List SparseArrayC)
    (rest : List (Nat × Option (List SparseArrayC))) :
    nnKeys ((k, some v) :: rest) = k :: nnKeys rest := by
  simp [nnKeys]

lemma recData_cons (e : Nat × Option (List SparseArrayC))
    (rest : List (Nat × Option (List SparseArrayC))) :
    recData (e :: rest) = writer_write e.1 e.2 ++ recData rest := by
  simp [recData]

lemma loadedStore_cons_none (k : Nat)
    (rest : List (Nat × Option (List SparseArrayC))) :
    loadedStore ((k, none) :: rest) = loadedStore rest := by
  simp [loadedStore]

lemma loadedStore_cons_some (k : Nat) (v : List SparseArrayC)
    (rest : List (Nat × Option (List SparseArrayC))) :
    loadedStore ((k, some v) :: rest)
      = (k, loadedVec v) :: loadedStore rest := by
  simp [loadedStore]

lemma storeSet_append (store : List (Nat × List SparseArrayC)) (k : Nat)
    (v : List SparseArrayC) (h : ∀ x ∈ store, x.1 ≠ k) :
    storeSet store k v = store ++ [(k, v)] := by
  have hany : store.any (fun e => decide (e.1 = k)) = false := by
    rw [List.any_eq_false]
    intro x hx
    simpa using h x hx
  rw [storeSet, hany]
  simp

lemma nnKeys_length_le (entries : List (Nat × Option (List SparseArrayC))) :
    (nnKeys entries).length ≤ (recData entries).length := by
  induction entries with
  | nil => simp [nnKeys, recData]
  | cons e rest ih =>
      cases e with
      | mk k ov =>
          cases ov with
          | none => rw [nnKeys_cons_none, recData_cons]; simp [writer_write]; omega
          | some v =>
              rw [nnKeys_cons_some, recData_cons]
              simp only [List.length_cons, List.length_append, writer_write]
              simp
              omega

lemma loadLoop_dump :
    ∀ (entries : List (Nat × Option (List SparseArrayC))) (fuel : Nat)
      (store0 : List (Nat × List SparseArrayC)),
      (nnKeys entries).length < fuel →
      (∀ k ∈ nnKeys entries, ∀ x ∈ store0, x.1 ≠ k) →
      (nnKeys entries).Nodup →
      loadLoop fuel { rem := recData entries, eof := false } store0
        = Except.ok (store0 ++ loadedStore entries,
            { rem := [], eof := true }) := by
  intro entries
  induction entries with
  | nil =>
      intro fuel store0 hf hdis hnd
      match fuel, hf with
      | f + 1, _ =>
          show loadLoop (f + 1) { rem := recData [], eof := false } store0 = _
          rw [loadLoop]
          simp [reader_read, freadD, recData, loadedStore]
  | cons e rest ih =>
      intro fuel store0 hf hdis hnd
      cases e with
      | mk k ov =>
          cases ov with
          | none =>
              rw [recData_cons]
              show loadLoop fuel
                  { rem := [] ++ recData rest, eof := false } store0 = _
              rw [List.nil_append, loadedStore_cons_none]
              rw [nnKeys_cons_none] at hf hdis hnd
              exact ih fuel store0 hf hdis hnd
          | some v =>
              rw [nnKeys_cons_some] at hf hdis hnd
              match fuel, hf with
              | f + 1, hf' =>
                  rw [recData_cons, loadedStore_cons_some]
                  have hkey : ∀ x ∈ store0, x.1 ≠ k :=
                    hdis k (List.mem_cons_self k _)
                  have hlen : ((preSent v).mergeSort cmpLE).length
                      = (preSent v).length := List.length_mergeSort _
                  have hdata : writer_write k (some v) ++ recData rest
                      = FileDatum.word k ::
                          FileDatum.len
                            ((((preSent v).mergeSort cmpLE).length : Nat) :
                              Int) ::
                          (((preSent v).mergeSort cmpLE).map entD ++
                            recData rest) := by
                    rw [writer_write, hlen]
                    simp
                  rw [hdata, loadLoop,
                    reader_read_exact k ((preSent v).mergeSort cmpLE)
                      (recData rest) false]
                  show loadLoop f { rem := recData rest, eof := false }
                      (storeSet store0 k (loadedVec v)) = _
                  rw [storeSet_append store0 k (loadedVec v) hkey]
                  have hdis' : ∀ k' ∈ nnKeys rest,
                      ∀ x ∈ store0 ++ [(k, loadedVec v)], x.1 ≠ k' := by
                    intro k' hk' x hx
                    rcases List.mem_append.mp hx with hx0 | hx1
                    · exact hdis k' (List.mem_cons_of_mem k hk') x hx0
                    · have hx2 : x = (k, loadedVec v) := by simpa using hx1
                      rw [hx2]
                      intro hkk
                      apply (List.nodup_cons.mp hnd).1
                      have hk2 : k = k' := hkk
                      rw [hk2]
                      exact hk'
                  have := ih f (store0 ++ [(k, loadedVec v)])
                    (by
                      have hf2 := hf'
                      simp only [List.length_cons] at hf2
                      omega) hdis'
                    (List.nodup_cons.mp hnd).2
                  rw [this]
                  simp

/-- C1: dumping any weights table (distinct keys, as in the hashed map) and
loading the produced file reconstructs an equivalent store: `load` returns
the dumped class count, the rebuilt table has exactly the non-NULL feature
keys, and each such key maps to a vector holding exactly the original
pre-sentinel (class id, weight) cells, reordered ascending by class id. -/
theorem thinc_C1_roundtrip (nr : Nat)
    (entries : List (Nat × Option (List SparseArrayC)))
    (hnd : (nnKeys entries).Nodup) :
    linear_load (linear_dump nr entries) [] =
        Except.ok (loadedStore entries, nr)
    ∧ (loadedStore entries).map Prod.fst = nnKeys entries
    ∧ ∀ k v, (k, some v) ∈ entries →
        ∃ body, (k, body ++ [⟨-2, 0⟩]) ∈ loadedStore entries
          ∧ body.Perm (preSent v)
          ∧ body.Pairwise (fun a b => a.key ≤ b.key) := by
  refine ⟨?_, ?_, ?_⟩
  · have hinit : reader_init (linear_dump nr entries)
        = (nr, { rem := recData entries, eof := false }) := by
      simp [reader_init, freadD, linear_dump, recData]
    have hfuel : (nnKeys entries).length
        < (linear_dump nr entries).length + 1 := by
      have h1 := nnKeys_length_le entries
      have h2 : (linear_dump nr entries).length
          = (recData entries).length + 1 := by
        simp [linear_dump, recData]
      omega
    have hloop := loadLoop_dump entries ((linear_dump nr entries).length + 1)
      [] hfuel (by intro k hk x hx; cases hx) hnd
    rw [linear_load, hinit]
    show (loadLoop ((linear_dump nr entries).length + 1)
        { rem := recData entries, eof := false } []).map
        (fun r => (r.1, nr)) = _
    rw [hloop]
    simp [Except.map]
  · induction entries with
    | nil => rfl
    | cons e rest ih =>
        cases e with
        | mk k ov =>
            cases ov with
            | none =>
                rw [loadedStore_cons_none, nnKeys_cons_none]
                rw [nnKeys_cons_none] at hnd
                exact ih hnd
            | some v =>
                rw [loadedStore_cons_some, nnKeys_cons_some]
                rw [nnKeys_cons_some] at hnd
                simp only [List.map_cons]
                exact congrArg (k :: ·) (ih (List.nodup_cons.mp hnd).2)
  · intro k v hmem
    refine ⟨(preSent v).mergeSort cmpLE, ?_, List.mergeSort_perm _ _,
      mergeSort_key_sorted (preSent v)⟩
    have hm : (k, loadedVec v) ∈ loadedStore entries := by
      rw [loadedStore, List.mem_filterMap]
      exact ⟨(k, some v), hmem, rfl⟩
    exact hm

theorem thinc_C1_witness :
    linear_load (linear_dump 5 []) [] = Except.ok ([], 5) :=
  (thinc_C1_roundtrip 5 [] (by decide)).1

/-- Per-example state the backward pass touches, mirroring the fields of
`ExampleC` that `MultiLayerPerceptron.backprop` reads and writes: dense
buffers are functions from indices to rationals. -/
structure ExampleC where
  nr_class : Nat
  scores : Nat → ℚ
  target : Nat → ℚ
  deltas : Nat → Nat → ℚ
  gradB : Nat → Nat → ℚ
  gradW : Nat → Nat → Nat → ℚ
  signal : Nat → Nat → ℚ

/-- Replacement of one row of an indexed family of buffers. -/
def updAt {α : Type} (f : Nat → α) (l : Nat) (x : α) : Nat → α :=
  fun m => if m = l then x else f m

/-- Model of `memcpy(dst, src, n * sizeof(weight))` on a dense buffer. -/
def memcpyVec (dst src : Nat → ℚ) (n : Nat) : Nat → ℚ :=
  fun i => if i < n then src i else dst i

/-- Modelled from the spec: `Matrix.isubC` (the `matrix` module is not among
the given sources) subtracts the second operand from the first elementwise in
place, over the `n` live entries of the buffer. -/
def isubC (dst src : Nat → ℚ) (n : Nat) : Nat → ℚ :=
  fun i => if i < n then dst i - src i else dst i

/-- First two statements of `MultiLayerPerceptron.backprop`: copy the scores
over the `nr_class` entries of `deltas[depth]`, then subtract the target in
place. -/
def backprop_delta_init (depth : Nat) (eg : ExampleC) : ExampleC :=
  { eg with
      deltas := updAt eg.deltas depth
        (isubC (memcpyVec (eg.deltas depth) eg.scores eg.nr_class)
          eg.target eg.nr_class) }

/-- Modelled from the spec: one iteration of the backprop loop at layer `i` —
bias gradient `+= deltas[i]` (`Matrix.iaddC`), weight gradient
`+= outer(deltas[i], signal[i])` (`Matrix.iadd_outerC`), and for `i >= 1` a
shallower delta produced by the layer's activation derivative, kept abstract
as the parameter `dact` since the concrete activation is model
configuration. -/
def backprop_step (dact : Nat → ExampleC → Nat → ℚ) (i : Nat)
    (eg : ExampleC) : ExampleC :=
  { eg with
      gradB := updAt eg.gradB i (fun j => eg.gradB i j + eg.deltas i j),
      gradW := updAt eg.gradW i
        (fun j c => eg.gradW i j c + eg.deltas i j * eg.signal i c),
      deltas := if 1 ≤ i then updAt eg.deltas (i - 1) (dact i eg)
        else eg.deltas }

/-- The `for i in range(self.depth, -1, -1)` loop of `backprop`, from layer
`i` down to layer 0. -/
def backprop_go (dact : Nat → ExampleC → Nat → ℚ) :
    Nat → ExampleC → ExampleC
  | 0, eg => backprop_step dact 0 eg
  | i + 1, eg => backprop_go dact i (backprop_step dact (i + 1) eg)

/-- Body of `MultiLayerPerceptron.backprop`: the terminal-delta computation
runs first, then the gradient-accumulation loop walks the layers. -/
def backprop (dact : Nat → ExampleC → Nat → ℚ) (depth : Nat)
    (eg : ExampleC) : ExampleC :=
  backprop_go dact depth (backprop_delta_init depth eg)

/-- C8: after the first two statements of `backprop` — and before the
gradient loop of `backprop` touches anything — the terminal delta at layer
`depth` equals `scores - target` elementwise over the `nr_class` entries,
while both gradient accumulators are still untouched. -/
theorem thinc_C8_terminal_delta (dact : Nat → ExampleC → Nat → ℚ)
    (depth : Nat) (eg : ExampleC) (i : Nat) (hi : i < eg.nr_class) :
    (backprop_delta_init depth eg).deltas depth i
        = eg.scores i - eg.target i
    ∧ (backprop_delta_init depth eg).gradB = eg.gradB
    ∧ (backprop_delta_init depth eg).gradW = eg.gradW
    ∧ backprop dact depth eg
        = backprop_go dact depth (backprop_delta_init depth eg) := by
  refine ⟨?_, rfl, rfl, rfl⟩
  simp [backprop_delta_init, updAt, isubC, memcpyVec, hi]

/-- A concrete two-class example exercising the terminal-delta step. -/
def egC8 : ExampleC :=
  { nr_class := 2
    scores := fun i => if i = 0 then 7/10 else 3/10
    target := fun i => if i = 0 then 1 else 0
    deltas := fun _ _ => 5
    gradB := fun _ _ => 0
    gradW := fun _ _ _ => 0
    signal := fun _ _ => 0 }

theorem thinc_C8_witness :
    (backprop_delta_init 1 egC8).deltas 1 0
        = egC8.scores 0 - egC8.target 0
    ∧ (backprop_delta_init 1 egC8).gradB = egC8.gradB
    ∧ (backprop_delta_init 1 egC8).gradW = egC8.gradW
    ∧ backprop (fun _ _ _ => 0) 1 egC8
        = backprop_go (fun _ _ _ => 0) 1 (backprop_delta_init 1 egC8) :=
  thinc_C8_terminal_delta (fun _ _ _ => 0) 1 egC8 0 (by decide)

/-- Abstract attributes of a target path and of the C-library calls made for
it, the inputs of the persistence layer's checks: whether the path exists,
whether it names a directory, whether `fopen` returned non-NULL, and the
`fclose` status. -/
structure PathInfo where
  present : Bool
  isdir : Bool
  fopenOk : Bool
  deriving Repr, DecidableEq

/-- Checks of `_Writer.__init__`: `if path.exists(loc): assert not
path.isdir(loc)`, then `assert self._fp != NULL` after `fopen`; `true` means
construction succeeds, `false` a fatal assertion failure. -/
def writer_init_ok (p : PathInfo) : Bool :=
  (!p.present || !p.isdir) && p.fopenOk

/-- Checks of `_Reader.__init__`: `assert path.exists(loc)`, `assert not
path.isdir(loc)`, then `assert self._fp != NULL` after `fopen`. -/
def reader_init_ok (p : PathInfo) : Bool :=
  p.present && !p.isdir && p.fopenOk

/-- Check of `_Writer.close`: `assert status == 0` on the `fclose` return
value. -/
def writer_close_ok (status : Int) : Bool := status == 0

/-- C9: opening for persistence fails exactly under the spec's resource-error
conditions — the writer when the target names an existing directory or
`fopen` fails, the reader when the path is missing, names a directory or
`fopen` fails — and `_Writer.close` fails exactly when the underlying
`fclose` reports nonzero status. -/
theorem thinc_C9_resource_errors :
    (∀ p : PathInfo, writer_init_ok p = false
        ↔ ((p.present = true ∧ p.isdir = true) ∨ p.fopenOk = false))
    ∧ (∀ p : PathInfo, reader_init_ok p = false
        ↔ (p.present = false ∨ p.isdir = true ∨ p.fopenOk = false))
    ∧ (∀ s : Int, writer_close_ok s = false ↔ s ≠ 0) := by
  refine ⟨?_, ?_, ?_⟩
  · intro p
    rcases p with ⟨pr, di, fo⟩
    cases pr <;> cases di <;> cases fo <;> simp [writer_init_ok]
  · intro p
    rcases p with ⟨pr, di, fo⟩
    cases pr <;> cases di <;> cases fo <;> simp [reader_init_ok]
  · intro s
    simp [writer_close_ok]

end Thinc
